import Mathlib

/-!
# Verification of `nth_bit_permutation.cpp`

A shallow embedding of the core of `src/nth_bit_permutation.cpp`:

* `pascalt` — the global Pascal-triangle table built by `make_pascal_triangle`
  (a `std::vector<std::vector<unsigned>>` with rows `0..MAXBITS`), embedded as a
  `List (List Nat)`.
* `rank_from_permutation` — the rank engine (bitmap → rank).
* `permutation_from_rank` — the unrank engine (rank → bitmap).

Embedding conventions:

* C `unsigned` values are `Nat`.  Wherever an unsigned subtraction in the source
  could wrap, the wrap is modelled explicitly (`usub`, `udec`, truncated at
  `2 ^ 32` exactly as 32-bit unsigned arithmetic does); additions in the engines
  are kept as plain `Nat` additions, and the theorems below establish that all
  values stay below `2 ^ 32` on the inputs they cover, so `Nat` agrees with the
  machine arithmetic there.
* The table accesses `pascalt[row][col]` are modelled by `pget?`, which returns
  `none` when the index is outside the built table — the situations in which the
  C program would read out of bounds (undefined behaviour).
* The unbounded `for(;;)` loops are modelled with an explicit fuel parameter;
  running out of fuel also yields `none`.  The top-level engines are given
  `ntotbits + 2` units of fuel, and the termination theorems prove that
  `ntotbits + 1` units already suffice, i.e. that the C loops stop within
  `ntotbits` iterations.
* `1 << (ntotbits-1)` is modelled as `2 ^ (ntotbits - 1)` with truncated `Nat`
  subtraction.  (For `ntotbits = 0` the C shift is undefined behaviour, but both
  engines exit their loops before ever reading `thisbit` in that case, so the
  modelled value is irrelevant there.)
-/

/-- `MAXBITS` from the source: the maximum number of bits supported. -/
def MAXBITS : Nat := 32

/-- One step of the table construction: from row `i-1` of Pascal's triangle
build row `i`, exactly as the body of the outer loop of
`make_pascal_triangle` does: first `prev[0]`, then `prev[j-1] + prev[j]` for
`j = 1 .. prev.size()-1`, finally `prev.back()`. -/
def pascalRowNext (prev : List Nat) : List Nat :=
  prev.headD 0 :: (List.zipWith (fun a b => a + b) prev prev.tail ++ [prev.getLastD 0])

/-- Row `i` of the table built by `make_pascal_triangle`: row `0` is `[1]`,
row `i` is derived from row `i-1` by `pascalRowNext`. -/
def pascalRow : Nat → List Nat
  | 0 => [1]
  | i + 1 => pascalRowNext (pascalRow i)

/-- The table `pascalt` after `make_pascal_triangle()` has run: rows
`0 .. MAXBITS` of Pascal's triangle. -/
def pascalt : List (List Nat) := (List.range (MAXBITS + 1)).map pascalRow

/-- `pascalt[i][j]`: `none` models an out-of-bounds access (undefined
behaviour in the C program). -/
def pget? (i j : Nat) : Option Nat := pascalt[i]?.bind fun row => row[j]?

/-- 32-bit unsigned subtraction `a - b` (wraps modulo `2 ^ 32`), valid for
`a, b < 2 ^ 32`. -/
def usub (a b : Nat) : Nat := ((2 ^ 32 + a) - b) % 2 ^ 32

/-- 32-bit unsigned decrement (`c--` on an `unsigned`), wrapping at zero. -/
def udec (c : Nat) : Nat := ((2 ^ 32 + c) - 1) % 2 ^ 32

/-- The `for(;;)` loop of `rank_from_permutation`, with explicit fuel.

```
for(;;) {
   if (pascalt[row][col] == 1) break;
   row--;
   if (bitmap & thisbit) total += pascalt[row][col-1];
   else col--;
   thisbit >>= 1;
}
```
-/
def rankLoop (bitmap : Nat) : Nat → Nat → Nat → Nat → Nat → Option Nat
  | 0, _, _, _, _ => none
  | fuel + 1, row, col, thisbit, total =>
    (pget? row col).bind fun p =>
      if p = 1 then some total
      else
        if bitmap &&& thisbit ≠ 0 then
          (pget? (udec row) (udec col)).bind fun q =>
            rankLoop bitmap fuel (udec row) col (thisbit >>> 1) (total + q)
        else
          rankLoop bitmap fuel (udec row) (udec col) (thisbit >>> 1) total

/-- `rank_from_permutation(bitmap, ntotbits, nsetbits)` from the source:
given a bitmap of the class `(ntotbits, nsetbits)`, return its rank. -/
def rank_from_permutation (bitmap ntotbits nsetbits : Nat) : Option Nat :=
  rankLoop bitmap (ntotbits + 2) ntotbits (usub ntotbits nsetbits)
    (2 ^ (ntotbits - 1)) 0

/-- The `for(;;)` loop of `permutation_from_rank`, with explicit fuel.

```
for(;;) {
   if (row-- == 0) break;
   if (col > 0 && rank < pascalt[row][col-1]) { --col; }
   else { if (col) rank -= pascalt[row][col-1]; res |= thisbit; }
   thisbit >>= 1;
}
```
(`row-- == 0` is modelled by the `row = 0` test followed by `row - 1`; the
short-circuit of `&&` is modelled by testing `0 < col` before any table
access.) -/
def permLoop : Nat → Nat → Nat → Nat → Nat → Nat → Option Nat
  | 0, _, _, _, _, _ => none
  | fuel + 1, row, col, rank, res, thisbit =>
    if row = 0 then some res
    else
      if 0 < col then
        (pget? (row - 1) (col - 1)).bind fun p =>
          if rank < p then
            permLoop fuel (row - 1) (col - 1) rank res (thisbit >>> 1)
          else
            permLoop fuel (row - 1) col (rank - p) (res ||| thisbit) (thisbit >>> 1)
      else
        permLoop fuel (row - 1) col rank (res ||| thisbit) (thisbit >>> 1)

/-- `permutation_from_rank(rank, ntotbits, nsetbits)` from the source: given a
rank in `[0, C(ntotbits, nsetbits))`, return the corresponding bitmap. -/
def permutation_from_rank (rank ntotbits nsetbits : Nat) : Option Nat :=
  permLoop (ntotbits + 2) ntotbits (usub ntotbits nsetbits) rank 0
    (2 ^ (ntotbits - 1))

/-- Number of set bits among bit positions `0 .. n-1` of `b` (the population
count of the low `n` bits). -/
def onesBelow (b : Nat) : Nat → Nat
  | 0 => 0
  | n + 1 => onesBelow b n + (if b.testBit n then 1 else 0)

/-- Mathematical unrank function of the combinatorial number system, on the
class of `n`-bit values with `k` set bits (written with `|||`, mirroring the
`res |= thisbit` of the source). -/
def unrankO : Nat → Nat → Nat → Nat
  | _, 0, _ => 0
  | r, n + 1, k =>
    if k ≤ n ∧ r < Nat.choose n k then unrankO r n k
    else 2 ^ n ||| unrankO (r - Nat.choose n k) n (k - 1)

/-- Mathematical unrank function, written with `+` instead of `|||`. -/
def unrankM : Nat → Nat → Nat → Nat
  | _, 0, _ => 0
  | r, n + 1, k =>
    if k ≤ n ∧ r < Nat.choose n k then unrankM r n k
    else 2 ^ n + unrankM (r - Nat.choose n k) n (k - 1)

/-- Mathematical rank function of the combinatorial number system: the rank of
`b` among `n`-bit values with `k` set bits (reads only bits `0 .. n-1`). -/
def rankM (b : Nat) : Nat → Nat → Nat
  | 0, _ => 0
  | n + 1, k =>
    if b.testBit n then Nat.choose n k + rankM b n (k - 1)
    else rankM b n k

/-- The ascending list of all 8-bit values with exactly five set bits
(the enumeration used by the concrete scenario of the spec). -/
def sorted85 : List Nat := (List.range 256).filter fun v => onesBelow v 8 == 5

/- ## Pascal-table lemmas -/

theorem pascalRow_eq (i : Nat) :
    pascalRow i = (List.range (i + 1)).map (Nat.choose i) := by
  induction i with
  | zero => rfl
  | succ i ih =>
    have hrow : pascalRow (i + 1) = pascalRowNext ((List.range (i + 1)).map (Nat.choose i)) := by
      rw [pascalRow, ih]
    rw [hrow, pascalRowNext]
    have hhead : ((List.range (i + 1)).map (Nat.choose i)).headD 0 = 1 := by
      rw [List.range_succ_eq_map]
      simp
    have htail : ((List.range (i + 1)).map (Nat.choose i)).tail
        = (List.range i).map fun j => Nat.choose i (j + 1) := by
      rw [List.range_succ_eq_map]
      simp [List.map_map, Function.comp_def]
    have hlast : ((List.range (i + 1)).map (Nat.choose i)).getLastD 0 = 1 := by
      rw [List.range_succ, List.map_append]
      simp [List.getLastD_concat]
    have hmid : List.zipWith (fun a b => a + b) ((List.range (i + 1)).map (Nat.choose i))
          (((List.range (i + 1)).map (Nat.choose i)).tail)
        = (List.range i).map fun j => Nat.choose (i + 1) (j + 1) := by
      rw [htail]
      conv_lhs => rw [List.range_succ, List.map_append]
      simp only [List.map_cons, List.map_nil]
      have hsplit := List.zipWith_append (fun a b => a + b)
        ((List.range i).map (Nat.choose i)) [Nat.choose i i]
        ((List.range i).map fun j => Nat.choose i (j + 1)) [] (by simp)
      rw [List.append_nil] at hsplit
      rw [hsplit, List.zipWith_map, List.zipWith_same]
      rw [show List.zipWith (fun a b : Nat => a + b) [Nat.choose i i] [] = [] from rfl,
        List.append_nil]
      apply List.map_congr_left
      intro j _
      exact (Nat.choose_succ_succ i j).symm
    rw [hhead, hmid, hlast]
    conv_rhs => rw [List.range_succ, List.map_append, List.range_succ_eq_map]
    simp [List.map_map, Function.comp_def, Nat.succ_eq_add_one]

theorem pascalt_getElem (i : Nat) (h : i ≤ MAXBITS) :
    pascalt[i]? = some ((List.range (i + 1)).map (Nat.choose i)) := by
  rw [pascalt, List.getElem?_map, List.getElem?_range (by omega : i < MAXBITS + 1)]
  simp [pascalRow_eq]

theorem pget?_eq (i j : Nat) (hi : i ≤ MAXBITS) (hj : j ≤ i) :
    pget? i j = some (Nat.choose i j) := by
  rw [pget?, pascalt_getElem i hi, Option.some_bind]
  rw [List.getElem?_map, List.getElem?_range (by omega : j < i + 1)]
  rfl

/- ## Unsigned-arithmetic helpers -/

theorem usub_eq (a b : Nat) (h : b ≤ a) (h2 : a < 2 ^ 32) : usub a b = a - b := by
  rw [usub, show 2 ^ 32 + a - b = 2 ^ 32 + (a - b) by omega]
  rw [Nat.add_mod_left, Nat.mod_eq_of_lt (by omega)]

theorem udec_eq (c : Nat) (h : 1 ≤ c) (h2 : c < 2 ^ 32) : udec c = c - 1 := by
  rw [udec, show 2 ^ 32 + c - 1 = 2 ^ 32 + (c - 1) by omega]
  rw [Nat.add_mod_left, Nat.mod_eq_of_lt (by omega)]

theorem and_two_pow_ne (b i : Nat) : (b &&& 2 ^ i ≠ 0) ↔ b.testBit i = true := by
  rw [Nat.and_two_pow]
  have hpos : 0 < 2 ^ i := Nat.two_pow_pos i
  cases h : b.testBit i
  · simp
  · simp only [Bool.toNat_true, Nat.one_mul]
    constructor
    · intro _; trivial
    · intro _; omega

theorem two_pow_or_eq_add (i b : Nat) (h : b < 2 ^ i) : 2 ^ i ||| b = 2 ^ i + b := by
  have := Nat.mul_add_lt_is_or h 1
  rw [Nat.mul_one] at this
  exact this.symm

/- ## Population-count lemmas -/

theorem onesBelow_le (b n : Nat) : onesBelow b n ≤ n := by
  induction n with
  | zero => exact Nat.le_refl 0
  | succ n ih =>
    rw [onesBelow]
    cases h : b.testBit n <;> simp <;> omega

theorem onesBelow_congr (b c n : Nat)
    (h : ∀ i, i < n → b.testBit i = c.testBit i) :
    onesBelow b n = onesBelow c n := by
  induction n with
  | zero => rfl
  | succ n ih =>
    rw [onesBelow, onesBelow, ih (fun i hi => h i (by omega)), h n (by omega)]

theorem onesBelow_zero_val (n : Nat) : onesBelow 0 n = 0 := by
  induction n with
  | zero => rfl
  | succ n ih => rw [onesBelow, ih]; simp [Nat.zero_testBit]

theorem onesBelow_all_ones (n : Nat) : onesBelow (2 ^ n - 1) n = n := by
  induction n with
  | zero => rfl
  | succ n ih =>
    rw [onesBelow]
    have h1 : onesBelow (2 ^ (n + 1) - 1) n = onesBelow (2 ^ n - 1) n := by
      apply onesBelow_congr
      intro i hi
      rw [Nat.testBit_two_pow_sub_one, Nat.testBit_two_pow_sub_one]
      have h2 : i < n + 1 := by omega
      simp [h2, hi]
    have h3 : (2 ^ (n + 1) - 1).testBit n = true := by
      rw [Nat.testBit_two_pow_sub_one]
      simp
    rw [h1, ih, h3]
    simp

/- ## Lemmas about the mathematical rank function -/

theorem rankM_congr (b c n : Nat)
    (h : ∀ i, i < n → b.testBit i = c.testBit i) :
    ∀ k, rankM b n k = rankM c n k := by
  induction n with
  | zero => intro k; rfl
  | succ n ih =>
    intro k
    rw [rankM, rankM, h n (by omega), ih (fun i hi => h i (by omega)),
      ih (fun i hi => h i (by omega))]

theorem rankM_all_ones (b n : Nat) (h : onesBelow b n = n) : rankM b n n = 0 := by
  induction n with
  | zero => rfl
  | succ n ih =>
    rw [onesBelow] at h
    have hle := onesBelow_le b n
    have hbit : b.testBit n = true := by
      by_contra hb
      rw [Bool.not_eq_true] at hb
      rw [hb] at h
      simp at h
      omega
    have hones : onesBelow b n = n := by rw [hbit] at h; simp at h; omega
    rw [rankM, hbit]
    simp only [if_true]
    rw [Nat.choose_eq_zero_of_lt (by omega), Nat.add_one_sub_one, ih hones]

theorem rankM_all_zeros (b n : Nat) (h : onesBelow b n = 0) : rankM b n 0 = 0 := by
  induction n with
  | zero => rfl
  | succ n ih =>
    rw [onesBelow] at h
    have hbit : b.testBit n = false := by
      cases hb : b.testBit n
      · rfl
      · rw [hb] at h; simp at h
    have hones : onesBelow b n = 0 := by rw [hbit] at h; omega
    rw [rankM, hbit]
    simp only [Bool.false_eq_true, if_false]
    exact ih hones

theorem rankM_lt_choose (b : Nat) :
    ∀ n k, onesBelow b n = k → rankM b n k < Nat.choose n k := by
  intro n
  induction n with
  | zero =>
    intro k h
    rw [onesBelow] at h
    subst h
    rw [rankM, Nat.choose_zero_right]
    omega
  | succ n ih =>
    intro k h
    rw [onesBelow] at h
    cases hb : b.testBit n
    · rw [hb] at h
      simp only [Bool.false_eq_true, if_false, Nat.add_zero] at h
      rw [rankM, hb]
      simp only [Bool.false_eq_true, if_false]
      exact Nat.lt_of_lt_of_le (ih k h) (Nat.choose_le_succ n k)
    · rw [hb] at h
      simp only [if_true] at h
      have hk : 1 ≤ k := by omega
      have h2 : onesBelow b n = k - 1 := by omega
      rw [rankM, hb]
      simp only [if_true]
      have hih := ih (k - 1) h2
      have hch : Nat.choose (n + 1) k = Nat.choose n (k - 1) + Nat.choose n k := by
        have hk1 : k - 1 + 1 = k := by omega
        calc Nat.choose (n + 1) k = Nat.choose (n + 1) (k - 1 + 1) := by rw [hk1]
          _ = Nat.choose n (k - 1) + Nat.choose n (k - 1 + 1) := Nat.choose_succ_succ' n (k - 1)
          _ = Nat.choose n (k - 1) + Nat.choose n k := by rw [hk1]
      omega

/- ## Lemmas about the mathematical unrank function -/

theorem unrankM_lt (n : Nat) : ∀ r k, unrankM r n k < 2 ^ n := by
  induction n with
  | zero => intro r k; rw [unrankM]; omega
  | succ n ih =>
    intro r k
    rw [unrankM]
    have h1 := ih r k
    have h2 := ih (r - Nat.choose n k) (k - 1)
    have hp : 2 ^ (n + 1) = 2 ^ n + 2 ^ n := by rw [Nat.pow_succ]; omega
    split
    · omega
    · omega

theorem unrankO_eq_unrankM (n : Nat) : ∀ r k, unrankO r n k = unrankM r n k := by
  induction n with
  | zero => intro r k; rfl
  | succ n ih =>
    intro r k
    rw [unrankO, unrankM, ih, ih]
    split
    · rfl
    · rw [two_pow_or_eq_add _ _ (unrankM_lt n _ _)]

theorem choose_succ_sub_one (n k : Nat) (hk : 1 ≤ k) :
    Nat.choose (n + 1) k = Nat.choose n (k - 1) + Nat.choose n k := by
  have hk1 : k - 1 + 1 = k := by omega
  calc Nat.choose (n + 1) k = Nat.choose (n + 1) (k - 1 + 1) := by rw [hk1]
    _ = Nat.choose n (k - 1) + Nat.choose n (k - 1 + 1) := Nat.choose_succ_succ' n (k - 1)
    _ = Nat.choose n (k - 1) + Nat.choose n k := by rw [hk1]

theorem choose_le_of_not_branch (n k r : Nat)
    (hA : ¬(k ≤ n ∧ r < Nat.choose n k)) : Nat.choose n k ≤ r := by
  by_cases hkn : k ≤ n
  · rcases Nat.lt_or_ge r (Nat.choose n k) with h | h
    · exact absurd ⟨hkn, h⟩ hA
    · exact h
  · rw [Nat.choose_eq_zero_of_lt (by omega)]
    omega

theorem testBit_two_pow_add_high (n x : Nat) (h : x < 2 ^ n) :
    (2 ^ n + x).testBit n = true := by
  rw [Nat.testBit_two_pow_add_eq, Nat.testBit_lt_two_pow h]
  rfl

theorem unrankM_spec (n : Nat) : ∀ k r, k ≤ n → r < Nat.choose n k →
    rankM (unrankM r n k) n k = r ∧ onesBelow (unrankM r n k) n = k := by
  induction n with
  | zero =>
    intro k r hk hr
    have hk0 : k = 0 := by omega
    subst hk0
    have hc : Nat.choose 0 0 = 1 := rfl
    have hr0 : r = 0 := by omega
    subst hr0
    exact ⟨rfl, rfl⟩
  | succ n ih =>
    intro k r hk hr
    by_cases hA : k ≤ n ∧ r < Nat.choose n k
    · have hu : unrankM r (n + 1) k = unrankM r n k := by
        rw [unrankM, if_pos hA]
      obtain ⟨ih1, ih2⟩ := ih k r hA.1 hA.2
      have hlt := unrankM_lt n r k
      have hbit : (unrankM r n k).testBit n = false := Nat.testBit_lt_two_pow hlt
      constructor
      · rw [hu, rankM, hbit]
        simp only [Bool.false_eq_true, if_false]
        exact ih1
      · rw [hu, onesBelow, hbit]
        simp only [Bool.false_eq_true, if_false]
        omega
    · have hu : unrankM r (n + 1) k
          = 2 ^ n + unrankM (r - Nat.choose n k) n (k - 1) := by
        rw [unrankM, if_neg hA]
      have hk1 : 1 ≤ k := by
        by_contra hk0
        have hk0' : k = 0 := by omega
        subst hk0'
        apply hA
        refine ⟨by omega, ?_⟩
        have h1 : Nat.choose (n + 1) 0 = 1 := Nat.choose_zero_right _
        have h2 : Nat.choose n 0 = 1 := Nat.choose_zero_right _
        omega
      have hge : Nat.choose n k ≤ r := choose_le_of_not_branch n k r hA
      have hr' : r - Nat.choose n k < Nat.choose n (k - 1) := by
        by_cases hkn : k ≤ n
        · have hch := choose_succ_sub_one n k hk1
          omega
        · have hkn1 : k = n + 1 := by omega
          subst hkn1
          have h1 : Nat.choose (n + 1) (n + 1) = 1 := Nat.choose_self _
          have h2 : Nat.choose n (n + 1) = 0 := Nat.choose_eq_zero_of_lt (by omega)
          have h3 : Nat.choose n (n + 1 - 1) = 1 := by
            rw [Nat.add_sub_cancel]
            exact Nat.choose_self n
          omega
      have hk1n : k - 1 ≤ n := by omega
      obtain ⟨ih1, ih2⟩ := ih (k - 1) (r - Nat.choose n k) hk1n hr'
      have hlt : unrankM (r - Nat.choose n k) n (k - 1) < 2 ^ n := unrankM_lt n _ _
      have hbitn : (2 ^ n + unrankM (r - Nat.choose n k) n (k - 1)).testBit n = true :=
        testBit_two_pow_add_high n _ hlt
      have hcongr : ∀ i, i < n →
          (2 ^ n + unrankM (r - Nat.choose n k) n (k - 1)).testBit i
            = (unrankM (r - Nat.choose n k) n (k - 1)).testBit i :=
        fun i hi => Nat.testBit_two_pow_add_gt hi _
      constructor
      · rw [hu, rankM, hbitn]
        simp only [if_true]
        rw [rankM_congr _ _ n hcongr (k - 1), ih1]
        omega
      · rw [hu, onesBelow, hbitn]
        simp only [if_true]
        rw [onesBelow_congr _ _ n hcongr, ih2]
        omega

theorem unrankM_rankM (n : Nat) : ∀ b k, b < 2 ^ n → onesBelow b n = k →
    unrankM (rankM b n k) n k = b := by
  induction n with
  | zero =>
    intro b k hb hk
    have hb0 : b = 0 := by omega
    subst hb0
    rfl
  | succ n ih =>
    intro b k hb hk
    have hp : 2 ^ (n + 1) = 2 ^ n + 2 ^ n := by rw [Nat.pow_succ]; omega
    cases hbit : b.testBit n
    · have hb' : b < 2 ^ n := by
        rcases Nat.lt_or_ge b (2 ^ n) with h | h
        · exact h
        · exfalso
          have hdiv : b / 2 ^ n = 1 := by
            apply Nat.div_eq_of_lt_le
            · omega
            · omega
          have : b.testBit n = true := by
            rw [Nat.testBit_to_div_mod, hdiv]
            rfl
          rw [this] at hbit
          exact Bool.noConfusion hbit
      rw [onesBelow, hbit] at hk
      simp only [Bool.false_eq_true, if_false, Nat.add_zero] at hk
      have hkn : k ≤ n := by
        rw [← hk]
        exact onesBelow_le b n
      have hrlt : rankM b n k < Nat.choose n k := rankM_lt_choose b n k hk
      have hrM : rankM b (n + 1) k = rankM b n k := by
        rw [rankM, hbit]
        simp only [Bool.false_eq_true, if_false]
      rw [hrM, unrankM, if_pos ⟨hkn, hrlt⟩]
      exact ih b k hb' hk
    · have hge : 2 ^ n ≤ b := by
        by_contra hlt
        have h0 : b.testBit n = false := Nat.testBit_lt_two_pow (by omega)
        rw [h0] at hbit
        exact Bool.false_ne_true hbit
      have hbeq : b = 2 ^ n + (b - 2 ^ n) := by omega
      have hb'lt : b - 2 ^ n < 2 ^ n := by omega
      have hcongr : ∀ i, i < n → b.testBit i = (b - 2 ^ n).testBit i := by
        intro i hi
        conv_lhs => rw [hbeq]
        exact Nat.testBit_two_pow_add_gt hi _
      rw [onesBelow, hbit] at hk
      simp only [if_true] at hk
      have hk1 : 1 ≤ k := by omega
      have hones' : onesBelow (b - 2 ^ n) n = k - 1 := by
        rw [← onesBelow_congr b _ n hcongr]
        omega
      have hrM : rankM b (n + 1) k = Nat.choose n k + rankM (b - 2 ^ n) n (k - 1) := by
        rw [rankM, hbit]
        simp only [if_true]
        rw [rankM_congr b _ n hcongr]
      rw [hrM, unrankM, if_neg (by rintro ⟨hkn, hlt⟩; omega)]
      rw [Nat.add_sub_cancel_left, ih (b - 2 ^ n) (k - 1) hb'lt hones']
      omega

theorem unrankM_strictMono (n : Nat) : ∀ k r1 r2, r1 < r2 → r2 < Nat.choose n k →
    unrankM r1 n k < unrankM r2 n k := by
  induction n with
  | zero =>
    intro k r1 r2 h12 h2
    exfalso
    have hle : Nat.choose 0 k ≤ 1 := by
      cases k
      · simp
      · rw [Nat.choose_eq_zero_of_lt (by omega)]
        omega
    omega
  | succ n ih =>
    intro k r1 r2 h12 h2
    have hk1 : 1 ≤ k := by
      by_contra h
      have hk0 : k = 0 := by omega
      subst hk0
      rw [Nat.choose_zero_right] at h2
      omega
    have hch := choose_succ_sub_one n k hk1
    by_cases hA2 : k ≤ n ∧ r2 < Nat.choose n k
    · have hA1 : k ≤ n ∧ r1 < Nat.choose n k := ⟨hA2.1, by omega⟩
      simp only [unrankM]
      rw [if_pos hA1, if_pos hA2]
      exact ih k r1 r2 h12 hA2.2
    · by_cases hA1 : k ≤ n ∧ r1 < Nat.choose n k
      · simp only [unrankM]
        rw [if_pos hA1, if_neg hA2]
        have h1 := unrankM_lt n r1 k
        omega
      · simp only [unrankM]
        rw [if_neg hA1, if_neg hA2]
        have hge1 : Nat.choose n k ≤ r1 := choose_le_of_not_branch n k r1 hA1
        have hr2' : r2 - Nat.choose n k < Nat.choose n (k - 1) := by omega
        have h12' : r1 - Nat.choose n k < r2 - Nat.choose n k := by omega
        have := ih (k - 1) (r1 - Nat.choose n k) (r2 - Nat.choose n k) h12' hr2'
        omega

/- ## Loop-simulation lemmas -/

theorem two_pow_shiftRight (m : Nat) (h : 1 ≤ m) : (2 ^ m) >>> 1 = 2 ^ (m - 1) := by
  conv_lhs => rw [Nat.shiftRight_eq_div_pow, Nat.pow_one, show m = (m - 1) + 1 by omega]
  rw [Nat.pow_succ]
  exact Nat.mul_div_cancel _ (by omega)

theorem permLoop_spec : ∀ fuel row col rank res thisbit,
    row < fuel → col ≤ row → row ≤ MAXBITS →
    (1 ≤ row → thisbit = 2 ^ (row - 1)) →
    rank < Nat.choose row (row - col) →
    permLoop fuel row col rank res thisbit
      = some (res ||| unrankO rank row (row - col)) := by
  intro fuel
  induction fuel with
  | zero =>
    intro row col rank res thisbit hf hcr h32 htb hrank
    exact absurd hf (Nat.not_lt_zero row)
  | succ fuel ih =>
    intro row col rank res thisbit hf hcr h32 htb hrank
    rcases Nat.eq_zero_or_pos row with hrow0 | hrowpos
    · subst hrow0
      simp [permLoop, unrankO]
    · obtain ⟨rr, rfl⟩ : ∃ rr, row = rr + 1 := ⟨row - 1, by omega⟩
      have htb' : thisbit = 2 ^ rr := by
        rw [htb (by omega), Nat.add_sub_cancel]
      subst htb'
      simp only [permLoop, Nat.add_sub_cancel]
      rw [if_neg (by omega : ¬ rr + 1 = 0)]
      by_cases hcol : 0 < col
      · have hcol1 : col - 1 ≤ rr := by omega
        rw [if_pos hcol, pget?_eq rr (col - 1) (by omega) hcol1, Option.some_bind]
        have hsymm : Nat.choose rr (col - 1) = Nat.choose rr (rr + 1 - col) := by
          rw [show rr + 1 - col = rr - (col - 1) by omega]
          exact (Nat.choose_symm hcol1).symm
        by_cases hlt : rank < Nat.choose rr (col - 1)
        · rw [if_pos hlt]
          have hk : rr - (col - 1) = rr + 1 - col := by omega
          have ihres := ih rr (col - 1) rank res (2 ^ rr >>> 1) (by omega) hcol1 (by omega)
            (fun h1 => two_pow_shiftRight rr h1)
            (by rw [hk, ← hsymm]; exact hlt)
          rw [ihres]
          simp only [unrankO]
          rw [if_pos ⟨by omega, by rw [← hsymm]; exact hlt⟩, hk]
        · rw [if_neg hlt]
          have hcolrr : col ≤ rr := by
            by_contra hgt
            have hcoleq : col = rr + 1 := by omega
            subst hcoleq
            rw [show rr + 1 - (rr + 1) = 0 by omega, Nat.choose_zero_right] at hrank
            rw [Nat.add_sub_cancel, Nat.choose_self] at hlt
            omega
          have hk1 : 1 ≤ rr + 1 - col := by omega
          have hch := choose_succ_sub_one rr (rr + 1 - col) hk1
          rw [show rr + 1 - col - 1 = rr - col by omega] at hch
          have hrank2 : rank - Nat.choose rr (col - 1) < Nat.choose rr (rr - col) := by
            omega
          have ihres := ih rr col (rank - Nat.choose rr (col - 1)) (res ||| 2 ^ rr)
            (2 ^ rr >>> 1) (by omega) hcolrr (by omega)
            (fun h1 => two_pow_shiftRight rr h1) hrank2
          rw [ihres]
          simp only [unrankO]
          rw [if_neg (by rintro ⟨h1, h2⟩; rw [← hsymm] at h2; exact hlt h2)]
          rw [← hsymm, show rr + 1 - col - 1 = rr - col by omega, Nat.lor_assoc]
      · rw [if_neg hcol]
        have hcol0 : col = 0 := by omega
        subst hcol0
        have hr0 : rank = 0 := by
          rw [Nat.sub_zero, Nat.choose_self] at hrank
          omega
        subst hr0
        have ihres := ih rr 0 0 (res ||| 2 ^ rr) (2 ^ rr >>> 1) (by omega) (by omega)
          (by omega) (fun h1 => two_pow_shiftRight rr h1)
          (by rw [Nat.sub_zero, Nat.choose_self]; omega)
        rw [ihres]
        simp only [Nat.sub_zero, unrankO]
        rw [if_neg (by rintro ⟨h1, _⟩; omega)]
        rw [Nat.zero_sub, Nat.add_sub_cancel, Nat.lor_assoc]

theorem choose_two_le (m j : Nat) (h0 : 0 < j) (hm : j < m) : 2 ≤ Nat.choose m j := by
  obtain ⟨m1, rfl⟩ : ∃ m1, m = m1 + 1 := ⟨m - 1, by omega⟩
  obtain ⟨j1, rfl⟩ : ∃ j1, j = j1 + 1 := ⟨j - 1, by omega⟩
  rw [Nat.choose_succ_succ']
  have h1 : 0 < Nat.choose m1 j1 := Nat.choose_pos (by omega)
  have h2 : 0 < Nat.choose m1 (j1 + 1) := Nat.choose_pos (by omega)
  omega

theorem choose_ne_one_bounds (row col : Nat) (hcr : col ≤ row)
    (hp : Nat.choose row col ≠ 1) : 0 < col ∧ col < row := by
  constructor
  · by_contra h
    have hc : col = 0 := by omega
    subst hc
    exact hp (Nat.choose_zero_right row)
  · by_contra h
    have hc : col = row := by omega
    subst hc
    exact hp (Nat.choose_self col)

theorem rankLoop_spec : ∀ fuel row col thisbit total b,
    row < fuel → col ≤ row → row ≤ MAXBITS →
    (1 ≤ row → thisbit = 2 ^ (row - 1)) →
    onesBelow b row = row - col →
    rankLoop b fuel row col thisbit total
      = some (total + rankM b row (row - col)) := by
  intro fuel
  induction fuel with
  | zero =>
    intro row col thisbit total b hf hcr h32 htb hones
    exact absurd hf (Nat.not_lt_zero row)
  | succ fuel ih =>
    intro row col thisbit total b hf hcr h32 htb hones
    simp only [rankLoop]
    rw [pget?_eq row col h32 hcr, Option.some_bind]
    by_cases hp : Nat.choose row col = 1
    · rw [if_pos hp]
      rcases Nat.eq_zero_or_pos col with hc0 | hcpos
      · subst hc0
        rw [Nat.sub_zero] at hones ⊢
        rw [rankM_all_ones b row hones, Nat.add_zero]
      · have hceq : col = row := by
          by_contra hne
          have h2 := choose_two_le row col hcpos (by omega)
          omega
        subst hceq
        rw [Nat.sub_self] at hones ⊢
        rw [rankM_all_zeros b col hones, Nat.add_zero]
    · rw [if_neg hp]
      obtain ⟨hcol0, hcolrow⟩ := choose_ne_one_bounds row col hcr hp
      obtain ⟨rr, rfl⟩ : ∃ rr, row = rr + 1 := ⟨row - 1, by omega⟩
      have hMB : MAXBITS = 32 := rfl
      have hud_row : udec (rr + 1) = rr := by
        rw [udec_eq (rr + 1) (by omega) (by omega), Nat.add_sub_cancel]
      have hud_col : udec col = col - 1 := udec_eq col (by omega) (by omega)
      rw [htb (by omega), Nat.add_sub_cancel, hud_row, hud_col]
      have hsymm : Nat.choose rr (col - 1) = Nat.choose rr (rr + 1 - col) := by
        rw [show rr + 1 - col = rr - (col - 1) by omega]
        exact (Nat.choose_symm (by omega)).symm
      rw [onesBelow] at hones
      by_cases hbit : b.testBit rr
      · have hand : (b &&& 2 ^ rr ≠ 0) := (and_two_pow_ne b rr).mpr hbit
        rw [if_pos hand, pget?_eq rr (col - 1) (by omega) (by omega), Option.some_bind]
        rw [hbit] at hones
        simp only [if_true] at hones
        have ihres := ih rr col (2 ^ rr >>> 1) (total + Nat.choose rr (col - 1)) b
          (by omega) (by omega) (by omega) (fun h1 => two_pow_shiftRight rr h1)
          (by omega)
        rw [ihres]
        have hrankM : rankM b (rr + 1) (rr + 1 - col)
            = Nat.choose rr (rr + 1 - col) + rankM b rr (rr + 1 - col - 1) := by
          rw [rankM, if_pos hbit]
        rw [hrankM, show rr + 1 - col - 1 = rr - col by omega, ← hsymm]
        rw [Nat.add_assoc]
      · have hand : ¬(b &&& 2 ^ rr ≠ 0) := by
          intro hne
          rw [(and_two_pow_ne b rr).mp hne] at hbit
          exact hbit rfl
        rw [if_neg hand]
        rw [if_neg hbit] at hones
        rw [Nat.add_zero] at hones
        have ihres := ih rr (col - 1) (2 ^ rr >>> 1) total b
          (by omega) (by omega) (by omega) (fun h1 => two_pow_shiftRight rr h1)
          (by omega)
        rw [ihres]
        have hrankM : rankM b (rr + 1) (rr + 1 - col) = rankM b rr (rr + 1 - col) := by
          rw [rankM, if_neg hbit]
        rw [hrankM, show rr - (col - 1) = rr + 1 - col by omega]

theorem rankLoop_safe : ∀ fuel row col thisbit total b,
    row < fuel → col ≤ row → row ≤ MAXBITS →
    ∃ t, rankLoop b fuel row col thisbit total = some t := by
  intro fuel
  induction fuel with
  | zero =>
    intro row col thisbit total b hf hcr h32
    exact absurd hf (Nat.not_lt_zero row)
  | succ fuel ih =>
    intro row col thisbit total b hf hcr h32
    simp only [rankLoop]
    rw [pget?_eq row col h32 hcr, Option.some_bind]
    by_cases hp : Nat.choose row col = 1
    · rw [if_pos hp]
      exact ⟨total, rfl⟩
    · rw [if_neg hp]
      obtain ⟨hcol0, hcolrow⟩ := choose_ne_one_bounds row col hcr hp
      obtain ⟨rr, rfl⟩ : ∃ rr, row = rr + 1 := ⟨row - 1, by omega⟩
      have hMB : MAXBITS = 32 := rfl
      have hud_row : udec (rr + 1) = rr := by
        rw [udec_eq (rr + 1) (by omega) (by omega), Nat.add_sub_cancel]
      have hud_col : udec col = col - 1 := udec_eq col (by omega) (by omega)
      rw [hud_row, hud_col]
      by_cases hand : b &&& thisbit ≠ 0
      · rw [if_pos hand, pget?_eq rr (col - 1) (by omega) (by omega), Option.some_bind]
        exact ih rr col (thisbit >>> 1) (total + Nat.choose rr (col - 1)) b
          (by omega) (by omega) (by omega)
      · rw [if_neg hand]
        exact ih rr (col - 1) (thisbit >>> 1) total b (by omega) (by omega) (by omega)

/- ## Bridges from the embedded engines to the mathematical functions -/

theorem permutation_from_rank_eq (rank n k : Nat) (hk : k ≤ n) (hn : n ≤ MAXBITS)
    (hr : rank < Nat.choose n k) :
    permutation_from_rank rank n k = some (unrankM rank n k) := by
  rw [permutation_from_rank]
  have hMB : MAXBITS = 32 := rfl
  rw [usub_eq n k hk (by omega)]
  have hsub : n - (n - k) = k := by omega
  have hspec := permLoop_spec (n + 2) n (n - k) rank 0 (2 ^ (n - 1)) (by omega)
    (by omega) hn (fun _ => rfl) (by rw [hsub]; exact hr)
  rw [hspec, hsub, Nat.zero_or, unrankO_eq_unrankM]

theorem rank_from_permutation_eq (b n k : Nat) (hk : k ≤ n) (hn : n ≤ MAXBITS)
    (hones : onesBelow b n = k) :
    rank_from_permutation b n k = some (rankM b n k) := by
  rw [rank_from_permutation]
  have hMB : MAXBITS = 32 := rfl
  rw [usub_eq n k hk (by omega)]
  have hsub : n - (n - k) = k := by omega
  have hspec := rankLoop_spec (n + 2) n (n - k) (2 ^ (n - 1)) 0 b (by omega)
    (by omega) hn (fun _ => rfl) (by rw [hsub]; exact hones)
  rw [hspec, hsub, Nat.zero_add]

theorem unrankM_zero_left (n : Nat) : unrankM 0 n 0 = 0 := by
  induction n with
  | zero => rfl
  | succ n ih =>
    rw [unrankM, if_pos ⟨Nat.zero_le n, by rw [Nat.choose_zero_right]; omega⟩]
    exact ih

theorem unrankM_zero_full (n : Nat) : unrankM 0 n n = 2 ^ n - 1 := by
  induction n with
  | zero => rfl
  | succ n ih =>
    rw [unrankM, if_neg (by rintro ⟨h, _⟩; omega)]
    rw [Nat.zero_sub, Nat.add_sub_cancel, ih]
    have hp : 2 ^ (n + 1) = 2 ^ n + 2 ^ n := by rw [Nat.pow_succ]; omega
    have h1 : 0 < 2 ^ n := Nat.two_pow_pos n
    omega

theorem choose_lt_two_pow_32 (i j : Nat) (hi : i ≤ 32) (hj : j ≤ i) :
    Nat.choose i j < 2 ^ 32 := by
  have hsum : ∑ m ∈ Finset.range (i + 1), Nat.choose i m = 2 ^ i := Nat.sum_range_choose i
  have hmem : j ∈ Finset.range (i + 1) := Finset.mem_range.mpr (by omega)
  have hle : Nat.choose i j ≤ 2 ^ i := by
    rw [← hsum]
    exact Finset.single_le_sum (fun m _ => Nat.zero_le _) hmem
  rcases Nat.lt_or_ge i 32 with h | h
  · have hpow : 2 ^ i < 2 ^ 32 := Nat.pow_lt_pow_right (by omega) h
    omega
  · have hi32 : i = 32 := by omega
    subst hi32
    rcases Nat.eq_zero_or_pos j with hj0 | hjpos
    · subst hj0
      rw [Nat.choose_zero_right]
      decide
    · rcases Nat.lt_or_ge j 32 with hj32 | hj32
      · have hsub : ({0, j} : Finset ℕ) ⊆ Finset.range 33 := by
          intro x hx
          rcases Finset.mem_insert.mp hx with rfl | hx2
          · exact Finset.mem_range.mpr (by omega)
          · rw [Finset.mem_singleton] at hx2
            subst hx2
            exact Finset.mem_range.mpr (by omega)
        have hpair : ∑ m ∈ ({0, j} : Finset ℕ), Nat.choose 32 m
            ≤ ∑ m ∈ Finset.range 33, Nat.choose 32 m :=
          Finset.sum_le_sum_of_subset hsub
        rw [Finset.sum_pair (by omega : (0 : ℕ) ≠ j)] at hpair
        rw [Nat.choose_zero_right] at hpair
        have h32 : (32 : ℕ) + 1 = 33 := rfl
        rw [h32] at hsum
        omega
      · have hjeq : j = 32 := by omega
        subst hjeq
        rw [Nat.choose_self]
        decide

/- ## Claim theorems -/

/-- **C1**: for every class `(ntotbits, nsetbits)` with
`nsetbits ≤ ntotbits ≤ 32` and every rank `r` with `r < C(ntotbits, nsetbits)`,
applying `rank_from_permutation` to the result of
`permutation_from_rank r ntotbits nsetbits` returns `r`. -/
theorem C1_rank_of_unrank (ntotbits nsetbits r : Nat)
    (hk : nsetbits ≤ ntotbits) (hn : ntotbits ≤ 32)
    (hr : r < Nat.choose ntotbits nsetbits) :
    ∃ b, permutation_from_rank r ntotbits nsetbits = some b ∧
      rank_from_permutation b ntotbits nsetbits = some r := by
  obtain ⟨h1, h2⟩ := unrankM_spec ntotbits nsetbits r hk hr
  refine ⟨unrankM r ntotbits nsetbits,
    permutation_from_rank_eq r ntotbits nsetbits hk hn hr, ?_⟩
  rw [rank_from_permutation_eq _ ntotbits nsetbits hk hn h2, h1]

/-- Witness for C1 at the concrete class `(8, 5)` and rank `7`. -/
theorem C1_rank_of_unrank_witness :
    ∃ b, permutation_from_rank 7 8 5 = some b ∧
      rank_from_permutation b 8 5 = some 7 :=
  C1_rank_of_unrank 8 5 7 (by decide) (by decide) (by decide)

/-- **C2**: for every class `(ntotbits, nsetbits)` with
`nsetbits ≤ ntotbits ≤ 32` and every bit-vector `b` whose low `ntotbits` bits
contain exactly `nsetbits` ones and whose bits at positions `≥ ntotbits` are
all zero, `permutation_from_rank` applied to the result of
`rank_from_permutation b ntotbits nsetbits` returns `b`. -/
theorem C2_unrank_of_rank (ntotbits nsetbits b : Nat)
    (hk : nsetbits ≤ ntotbits) (hn : ntotbits ≤ 32)
    (hb : b < 2 ^ ntotbits) (hones : onesBelow b ntotbits = nsetbits) :
    ∃ r, rank_from_permutation b ntotbits nsetbits = some r ∧
      permutation_from_rank r ntotbits nsetbits = some b := by
  have hr : rankM b ntotbits nsetbits < Nat.choose ntotbits nsetbits :=
    rankM_lt_choose b ntotbits nsetbits hones
  refine ⟨rankM b ntotbits nsetbits,
    rank_from_permutation_eq b ntotbits nsetbits hk hn hones, ?_⟩
  rw [permutation_from_rank_eq _ ntotbits nsetbits hk hn hr,
    unrankM_rankM ntotbits b nsetbits hb hones]

/-- Witness for C2 at the bit-vector `22 = 10110₂` of class `(5, 3)`. -/
theorem C2_unrank_of_rank_witness :
    ∃ r, rank_from_permutation 22 5 3 = some r ∧
      permutation_from_rank r 5 3 = some 22 :=
  C2_unrank_of_rank 5 3 22 (by decide) (by decide) (by decide) (by decide)

/-- **C3**: after `make_pascal_triangle` runs, the table has rows `0..32`,
row `i` has exactly `i + 1` entries, the boundary entries are `1`, each
interior entry satisfies the Pascal recurrence
`table[i][j] = table[i-1][j-1] + table[i-1][j]`, every entry equals the
binomial coefficient `C(i, j)` exactly, and no entry reaches `2 ^ 32`
(no 32-bit overflow for width 32). -/
theorem C3_pascal_table :
    pascalt.length = MAXBITS + 1 ∧
    (∀ i, i ≤ MAXBITS → ∃ row, pascalt[i]? = some row ∧ row.length = i + 1) ∧
    (∀ i, i ≤ MAXBITS → pget? i 0 = some 1 ∧ pget? i i = some 1) ∧
    (∀ i j, i ≤ MAXBITS → 0 < j → j < i →
      pget? i j = some (Nat.choose (i - 1) (j - 1) + Nat.choose (i - 1) j)) ∧
    (∀ i j, i ≤ MAXBITS → j ≤ i → pget? i j = some (Nat.choose i j)) ∧
    (∀ i j, i ≤ MAXBITS → j ≤ i → Nat.choose i j < 2 ^ 32) := by
  have hMB : MAXBITS = 32 := rfl
  refine ⟨by rw [pascalt]; simp, ?_, ?_, ?_, ?_, ?_⟩
  · intro i hi
    refine ⟨(List.range (i + 1)).map (Nat.choose i), pascalt_getElem i hi, by simp⟩
  · intro i hi
    refine ⟨?_, ?_⟩
    · rw [pget?_eq i 0 hi (Nat.zero_le i), Nat.choose_zero_right]
    · rw [pget?_eq i i hi (Nat.le_refl i), Nat.choose_self]
  · intro i j hi hj0 hji
    rw [pget?_eq i j hi (by omega)]
    have hch := choose_succ_sub_one (i - 1) j (by omega)
    rw [show i - 1 + 1 = i by omega] at hch
    rw [hch]
  · intro i j hi hj
    exact pget?_eq i j hi hj
  · intro i j hi hj
    exact choose_lt_two_pow_32 i j (by omega) hj

/-- Witness for C3 at the entry `(8, 5)` of the table. -/
theorem C3_pascal_table_witness :
    pget? 8 5 = some (Nat.choose 8 5) ∧ Nat.choose 8 5 < 2 ^ 32 :=
  ⟨C3_pascal_table.2.2.2.2.1 8 5 (by decide) (by decide),
   C3_pascal_table.2.2.2.2.2 8 5 (by decide) (by decide)⟩

/-- **C4**: for every class `(ntotbits, nsetbits)` with
`nsetbits ≤ ntotbits ≤ 32` and every bit-vector of that class, the value
returned by `rank_from_permutation` lies in `[0, C(ntotbits, nsetbits))`. -/
theorem C4_rank_in_range (ntotbits nsetbits b : Nat)
    (hk : nsetbits ≤ ntotbits) (hn : ntotbits ≤ 32)
    (hb : b < 2 ^ ntotbits) (hones : onesBelow b ntotbits = nsetbits) :
    ∃ r, rank_from_permutation b ntotbits nsetbits = some r ∧
      r < Nat.choose ntotbits nsetbits :=
  ⟨rankM b ntotbits nsetbits,
    rank_from_permutation_eq b ntotbits nsetbits hk hn hones,
    rankM_lt_choose b ntotbits nsetbits hones⟩

/-- Witness for C4 at the bit-vector `22 = 10110₂` of class `(5, 3)`. -/
theorem C4_rank_in_range_witness :
    ∃ r, rank_from_permutation 22 5 3 = some r ∧ r < Nat.choose 5 3 :=
  C4_rank_in_range 5 3 22 (by decide) (by decide) (by decide) (by decide)

/-- **C5**: for every class `(ntotbits, nsetbits)` with
`nsetbits ≤ ntotbits ≤ 32`, the sequence
`permutation_from_rank 0, permutation_from_rank 1, …,
permutation_from_rank (C(ntotbits, nsetbits) - 1)` is strictly increasing. -/
theorem C5_unrank_strict_mono (ntotbits nsetbits r1 r2 : Nat)
    (hk : nsetbits ≤ ntotbits) (hn : ntotbits ≤ 32) (h12 : r1 < r2)
    (h2 : r2 < Nat.choose ntotbits nsetbits) :
    ∃ v1 v2, permutation_from_rank r1 ntotbits nsetbits = some v1 ∧
      permutation_from_rank r2 ntotbits nsetbits = some v2 ∧ v1 < v2 :=
  ⟨unrankM r1 ntotbits nsetbits, unrankM r2 ntotbits nsetbits,
    permutation_from_rank_eq r1 ntotbits nsetbits hk hn (by omega),
    permutation_from_rank_eq r2 ntotbits nsetbits hk hn h2,
    unrankM_strictMono ntotbits nsetbits r1 r2 h12 h2⟩

/-- Witness for C5 at class `(8, 5)` and ranks `3 < 4`. -/
theorem C5_unrank_strict_mono_witness :
    ∃ v1 v2, permutation_from_rank 3 8 5 = some v1 ∧
      permutation_from_rank 4 8 5 = some v2 ∧ v1 < v2 :=
  C5_unrank_strict_mono 8 5 3 4 (by decide) (by decide) (by decide) (by decide)

/-- **C6**: for the class `(ntotbits = 8, nsetbits = 5)`:
`permutation_from_rank 0 8 5 = 31` (binary `00011111`);
`rank_from_permutation 31 8 5 = 0`; the first seven values are
`00011111, 00101111, 00110111, 00111011, 00111101, 00111110, 01001111`
(that is `31, 47, 55, 59, 61, 62, 79`); and for each `r` in `0..19`,
`permutation_from_rank r 8 5` equals the `(r+1)`-th smallest 8-bit value
with exactly five set bits, in increasing numeric order. -/
theorem C6_concrete_class_8_5 :
    permutation_from_rank 0 8 5 = some 31 ∧
    rank_from_permutation 31 8 5 = some 0 ∧
    sorted85.take 7 = [31, 47, 55, 59, 61, 62, 79] ∧
    (List.range 20).map (fun r => permutation_from_rank r 8 5)
      = (sorted85.take 20).map some := by
  refine ⟨?_, ?_, by decide, ?_⟩
  · rw [permutation_from_rank_eq 0 8 5 (by decide) (by decide) (by decide)]
    decide
  · rw [rank_from_permutation_eq 31 8 5 (by decide) (by decide) (by decide)]
    decide
  · have hmap : ∀ r ∈ List.range 20,
        permutation_from_rank r 8 5 = some (unrankM r 8 5) := by
      intro r hr
      have hr20 : r < 20 := List.mem_range.mp hr
      have hc : Nat.choose 8 5 = 56 := by decide
      exact permutation_from_rank_eq r 8 5 (by decide) (by decide) (by omega)
    rw [List.map_congr_left hmap]
    decide

/-- **C7 counterexample**: the claim says both precondition violations fail
with `InvalidArgument` before any algorithmic work, but the source contains no
validation at all: a rank call whose bitmap has the wrong population count
(`rank_from_permutation 0 2 1`, popcount 0 ≠ 1) returns the ordinary value
`0`, and an unrank call with `rank = C(2, 1) = 2` (one past the valid range)
returns the ordinary bitmap `3`, which is not even in the class `(2, 1)`. -/
theorem C7_counterexample_no_validation :
    rank_from_permutation 0 2 1 = some 0 ∧
    permutation_from_rank 2 2 1 = some 3 := by
  decide

/-- **C7 (amended)**: the source performs no precondition checking.  A rank
call with a mismatched population count returns an ordinary numeric total
(e.g. `rank_from_permutation 0 2 1 = 0`); an unrank call with
`rank = C(ntotbits, nsetbits)` either returns an out-of-class bitmap
(e.g. `permutation_from_rank 2 2 1 = 3`, population count 2 ≠ 1) or reads the
Pascal table out of bounds (e.g. `permutation_from_rank (C(8,5)) 8 5`,
modelled result `none`); no `InvalidArgument` failure path exists. -/
theorem C7_amended_no_validation :
    rank_from_permutation 0 2 1 = some 0 ∧
    permutation_from_rank 2 2 1 = some 3 ∧
    onesBelow 3 2 ≠ 1 ∧
    permutation_from_rank (Nat.choose 8 5) 8 5 = none := by
  decide

/-- **C8**: boundary classes fall out of the general algorithm: for
`nsetbits = 0` the all-zero bit-vector has rank `0` and rank `0` unranks to
`0`; for `nsetbits = ntotbits` the all-ones bit-vector `2 ^ ntotbits - 1` has
rank `0` and rank `0` unranks to it; for `ntotbits = nsetbits = 0` rank `0`
and bit-vector `0` map to each other. -/
theorem C8_boundary_classes (ntotbits : Nat) (hn : ntotbits ≤ 32) :
    (rank_from_permutation 0 ntotbits 0 = some 0 ∧
      permutation_from_rank 0 ntotbits 0 = some 0) ∧
    (rank_from_permutation (2 ^ ntotbits - 1) ntotbits ntotbits = some 0 ∧
      permutation_from_rank 0 ntotbits ntotbits = some (2 ^ ntotbits - 1)) ∧
    (rank_from_permutation 0 0 0 = some 0 ∧
      permutation_from_rank 0 0 0 = some 0) := by
  refine ⟨⟨?_, ?_⟩, ⟨?_, ?_⟩, by decide, by decide⟩
  · rw [rank_from_permutation_eq 0 ntotbits 0 (Nat.zero_le ntotbits) hn
      (onesBelow_zero_val ntotbits)]
    rw [rankM_all_zeros 0 ntotbits (onesBelow_zero_val ntotbits)]
  · rw [permutation_from_rank_eq 0 ntotbits 0 (Nat.zero_le ntotbits) hn
      (by rw [Nat.choose_zero_right]; omega)]
    rw [unrankM_zero_left ntotbits]
  · rw [rank_from_permutation_eq (2 ^ ntotbits - 1) ntotbits ntotbits
      (Nat.le_refl ntotbits) hn (onesBelow_all_ones ntotbits)]
    rw [rankM_all_ones (2 ^ ntotbits - 1) ntotbits (onesBelow_all_ones ntotbits)]
  · rw [permutation_from_rank_eq 0 ntotbits ntotbits (Nat.le_refl ntotbits) hn
      (by rw [Nat.choose_self]; omega)]
    rw [unrankM_zero_full ntotbits]

/-- Witness for C8 at width `ntotbits = 4`. -/
theorem C8_boundary_classes_witness :
    (rank_from_permutation 0 4 0 = some 0 ∧
      permutation_from_rank 0 4 0 = some 0) ∧
    (rank_from_permutation (2 ^ 4 - 1) 4 4 = some 0 ∧
      permutation_from_rank 0 4 4 = some (2 ^ 4 - 1)) ∧
    (rank_from_permutation 0 0 0 = some 0 ∧
      permutation_from_rank 0 0 0 = some 0) :=
  C8_boundary_classes 4 (by decide)

/-- **C9**: under the stated preconditions no table access goes out of
bounds (and the loops reach their exits): for every bitmap and every
`nsetbits ≤ ntotbits ≤ 32` the rank engine produces a value — `none` in the
embedding would signal an out-of-bounds `pascalt` read — and, with the
additional precondition `rank < C(ntotbits, nsetbits)`, so does the unrank
engine. -/
theorem C9_no_out_of_bounds_access :
    (∀ bitmap ntotbits nsetbits, nsetbits ≤ ntotbits → ntotbits ≤ 32 →
      ∃ t, rank_from_permutation bitmap ntotbits nsetbits = some t) ∧
    (∀ rank ntotbits nsetbits, nsetbits ≤ ntotbits → ntotbits ≤ 32 →
      rank < Nat.choose ntotbits nsetbits →
      ∃ v, permutation_from_rank rank ntotbits nsetbits = some v) := by
  constructor
  · intro bitmap n k hk hn
    rw [rank_from_permutation]
    have hMB : MAXBITS = 32 := rfl
    rw [usub_eq n k hk (by omega)]
    exact rankLoop_safe (n + 2) n (n - k) (2 ^ (n - 1)) 0 bitmap (by omega)
      (by omega) (by omega)
  · intro r n k hk hn hr
    exact ⟨unrankM r n k, permutation_from_rank_eq r n k hk hn hr⟩

/-- Witness for C9: the rank engine on bitmap `9` (wrong population count is
allowed here) and the unrank engine on rank `3`, class `(4, 2)`. -/
theorem C9_no_out_of_bounds_access_witness :
    (∃ t, rank_from_permutation 9 4 2 = some t) ∧
    (∃ v, permutation_from_rank 3 4 2 = some v) :=
  ⟨C9_no_out_of_bounds_access.1 9 4 2 (by decide) (by decide),
   C9_no_out_of_bounds_access.2 3 4 2 (by decide) (by decide) (by decide)⟩

/-- **C10**: both engine loops terminate for every input in the precondition
domain `nsetbits ≤ ntotbits ≤ 32`: the unbounded loop of
`rank_from_permutation` exits within `ntotbits` iterations for every bitmap
(fuel `ntotbits + 1` covers the final break check), and the loop of
`permutation_from_rank` performs exactly `ntotbits` iterations, `row`
counting down from `ntotbits` to `0`. -/
theorem C10_loops_terminate :
    (∀ bitmap ntotbits nsetbits, nsetbits ≤ ntotbits → ntotbits ≤ 32 →
      ∃ t, rankLoop bitmap (ntotbits + 1) ntotbits (ntotbits - nsetbits)
        (2 ^ (ntotbits - 1)) 0 = some t) ∧
    (∀ rank ntotbits nsetbits, nsetbits ≤ ntotbits → ntotbits ≤ 32 →
      rank < Nat.choose ntotbits nsetbits →
      ∃ v, permLoop (ntotbits + 1) ntotbits (ntotbits - nsetbits) rank 0
        (2 ^ (ntotbits - 1)) = some v) := by
  constructor
  · intro bitmap n k hk hn
    exact rankLoop_safe (n + 1) n (n - k) (2 ^ (n - 1)) 0 bitmap (by omega)
      (by omega) hn
  · intro r n k hk hn hr
    have hsub : n - (n - k) = k := by omega
    exact ⟨0 ||| unrankO r n (n - (n - k)),
      permLoop_spec (n + 1) n (n - k) r 0 (2 ^ (n - 1)) (by omega) (by omega) hn
        (fun _ => rfl) (by rw [hsub]; exact hr)⟩

/-- Witness for C10 at class `(4, 2)`: bitmap `9`, rank `3`. -/
theorem C10_loops_terminate_witness :
    (∃ t, rankLoop 9 (4 + 1) 4 (4 - 2) (2 ^ (4 - 1)) 0 = some t) ∧
    (∃ v, permLoop (4 + 1) 4 (4 - 2) 3 0 (2 ^ (4 - 1)) = some v) :=
  ⟨C10_loops_terminate.1 9 4 2 (by decide) (by decide),
   C10_loops_terminate.2 3 4 2 (by decide) (by decide) (by decide)⟩
